import Mathlib

/-!
Verification of the nv-redfish CSDL compiler core against its design
specification: the namespace / qualified-name model, the pattern-based
filter engine, property composition, the namespace-pruning optimizer and
the identifier case converter.  Rust sources are shallowly embedded as
executable Lean definitions; hash maps become association lists or
point-wise updated functions, and strings become `String` / `List Char`.
-/

namespace NvRedfish

/-- ASCII lower-case table: each pair maps an upper-case basic-latin letter to
its lower-case form, exactly the ASCII fragment of the Rust `char` case
predicates used by `generator/casemungler.rs`. -/
def lowerPairs : List (Char × Char) :=
  [('A', 'a'), ('B', 'b'), ('C', 'c'), ('D', 'd'), ('E', 'e'), ('F', 'f'),
   ('G', 'g'), ('H', 'h'), ('I', 'i'), ('J', 'j'), ('K', 'k'), ('L', 'l'),
   ('M', 'm'), ('N', 'n'), ('O', 'o'), ('P', 'p'), ('Q', 'q'), ('R', 'r'),
   ('S', 's'), ('T', 't'), ('U', 'u'), ('V', 'v'), ('W', 'w'), ('X', 'x'),
   ('Y', 'y'), ('Z', 'z')]

/-- Non-ASCII upper-case characters of the model.  Rust's
`char::is_uppercase` is a Unicode predicate; U+1D400 MATHEMATICAL BOLD
CAPITAL A is upper case there yet has no lower-case mapping, so
`String::to_lowercase` leaves it unchanged.  Carrying it makes the model
faithful on ASCII plus this character, which exhibits the tokenizer's
Unicode behaviour. -/
def extraUpperChars : List Char := ['𝐀']

/-- Model of Rust `char::is_uppercase`, faithful on ASCII and on the
characters of `extraUpperChars`. -/
def rustIsUpper (c : Char) : Bool :=
  lowerPairs.any (fun p => p.1 == c) || extraUpperChars.contains c

/-- Model of Rust `char::is_lowercase`, faithful on ASCII and on the
characters of `extraUpperChars` (which are not lower case). -/
def rustIsLower (c : Char) : Bool :=
  lowerPairs.any (fun p => p.2 == c)

/-- Model of Rust `char::to_lowercase` / `char::to_ascii_lowercase`, faithful
on ASCII and on the characters of `extraUpperChars` (which have no lower-case
mapping and stay unchanged). -/
def rustToLower (c : Char) : Char :=
  match lowerPairs.find? (fun p => p.1 == c) with
  | some p => p.2
  | none => c

/-- Model of Rust `char::to_ascii_uppercase` (ASCII by definition in Rust). -/
def rustToUpper (c : Char) : Char :=
  match lowerPairs.find? (fun p => p.2 == c) with
  | some p => p.1
  | none => c

/-- Look-ahead part of the word-boundary test of `tokenize_to_words`
(`generator/casemungler.rs`): the next character exists and is lower case,
and at least two lower-case characters follow the current one. -/
def lookAheadLower (rest : List Char) : Bool :=
  match rest with
  | [] => false
  | c1 :: _ => rustIsLower c1 && decide (2 ≤ (rest.takeWhile rustIsLower).length)

/-- Word-boundary test of `tokenize_to_words`: the current character is `_`,
or it is upper case and follows either a lower-case character (camel hump) or
an upper-case character that ends an acronym run before a new capitalized
word. -/
def isWordBoundary (prev : Option Char) (c : Char) (rest : List Char) : Bool :=
  c == '_' ||
    (match prev with
     | none => false
     | some p => rustIsUpper c && (rustIsLower p || (rustIsUpper p && lookAheadLower rest)))

/-- Character-list core of `tokenize_to_words` (`generator/casemungler.rs`):
walks the character stream carrying the previous character and the word being
built; a boundary finishes the current word, and `_` is consumed and never
enters a word. -/
def tokenizeGo (prev : Option Char) (cur : List Char) : List Char → List (List Char)
  | [] => [cur]
  | c :: rest =>
    if isWordBoundary prev c rest then
      cur :: tokenizeGo (some c) (if c == '_' then [] else [c]) rest
    else
      tokenizeGo (some c) (cur ++ if c == '_' then [] else [c]) rest

/-- Translation of `tokenize_to_words` (`generator/casemungler.rs`); words are
kept as character lists. -/
def tokenize_to_words (s : String) : List (List Char) :=
  tokenizeGo none [] s.toList

/-- Rust `Vec<String>::join("_")` at the character-list level. -/
def joinUnderscore : List (List Char) → List Char
  | [] => []
  | [w] => w
  | w :: ws => w ++ '_' :: joinUnderscore ws

/-- Translation of `to_snake` (`generator/casemungler.rs`): join the tokenized
words with `_` and lower-case the whole result. -/
def to_snake (s : String) : String :=
  ⟨(joinUnderscore (tokenize_to_words s)).map rustToLower⟩

/-- Capitalisation step of `to_camel` for one word: first character
upper-cased, the rest lower-cased; an empty word contributes nothing. -/
def capitalizeWord : List Char → List Char
  | [] => []
  | c :: rest => rustToUpper c :: rest.map rustToLower

/-- Translation of `to_camel` (`generator/casemungler.rs`). -/
def to_camel (s : String) : String :=
  ⟨((tokenize_to_words s).map capitalizeWord).flatten⟩

/-- C6: the case-conversion functions reproduce the golden vectors exactly:
`to_snake "PCIeFunctions" = "pcie_functions"`, `to_snake "NVMe" = "nvme"`,
`to_snake "nVMEfoobar" = "n_vm_efoobar"`, `to_camel "nVME" = "NVme"`,
`to_camel "_Some_Thing_Is_Not_Right" = "SomeThingIsNotRight"`,
`to_snake "" = ""` and `to_camel "" = ""`. -/
theorem casemungler_golden_vectors :
    to_snake "PCIeFunctions" = "pcie_functions" ∧
    to_snake "NVMe" = "nvme" ∧
    to_snake "nVMEfoobar" = "n_vm_efoobar" ∧
    to_camel "nVME" = "NVme" ∧
    to_camel "_Some_Thing_Is_Not_Right" = "SomeThingIsNotRight" ∧
    to_snake "" = "" ∧
    to_camel "" = "" := by
  refine ⟨?_, ?_, ?_, ?_, ?_, ?_, ?_⟩ <;> rfl

/-- Modelled from the spec: a `Namespace` is a dotted sequence of identifiers
(`compiler::CompiledNamespace`, not among the sources); identifiers are plain
strings here, validation being the ingestion layer's concern. -/
abbrev CompiledNamespace := List String

/-- Modelled from the spec: `parent()` drops the trailing segment and yields
`none` once at most one segment remains. -/
def CompiledNamespace.parent (ns : CompiledNamespace) : Option CompiledNamespace :=
  if ns.length ≤ 1 then none else some ns.dropLast

/-- Modelled from the spec: `get_id(depth)` is the bounds-checked segment
access of a namespace. -/
def CompiledNamespace.get_id (ns : CompiledNamespace) (depth : Nat) : Option String :=
  ns[depth]?

/-- Modelled from the spec: a `QualifiedName` is a namespace together with a
terminal identifier, with structural equality on both fields. -/
structure QualifiedName where
  «namespace» : CompiledNamespace
  name : String
deriving DecidableEq

/-- Translation of `EntityTypeFilterPattern` (`compiler/context.rs`): one
segment matcher per namespace position (`none` is the wildcard) and the set of
acceptable terminal names (empty means any); the `HashSet` becomes a list. -/
structure EntityTypeFilterPattern where
  ns_ids : List (Option String)
  names : List String
deriving DecidableEq

/-- Translation of `EntityTypeFilterPattern::matches` (`compiler/context.rs`
lines 119-138). -/
def EntityTypeFilterPattern.matches (p : EntityTypeFilterPattern) (typename : QualifiedName) : Bool :=
  if !p.names.isEmpty && !p.names.contains typename.name then
    false
  else if typename.«namespace».length != p.ns_ids.length then
    false
  else
    (List.range typename.«namespace».length).all fun depth =>
      match p.ns_ids[depth]? with
      | some (some pattern_id) =>
        match CompiledNamespace.get_id typename.«namespace» depth with
        | some ns => pattern_id == ns
        | none => true
      | _ => true

/-- Translation of `EntityTypeFilter` (`compiler/context.rs`): a pattern list
plus the permissive flag. -/
structure EntityTypeFilter where
  patterns : List EntityTypeFilterPattern
  permissive : Bool

/-- Translation of `EntityTypeFilter::new_restrictive`. -/
def EntityTypeFilter.new_restrictive (patterns : List EntityTypeFilterPattern) : EntityTypeFilter :=
  ⟨patterns, false⟩

/-- Translation of `EntityTypeFilter::new_permissive`. -/
def EntityTypeFilter.new_permissive (patterns : List EntityTypeFilterPattern) : EntityTypeFilter :=
  ⟨patterns, true⟩

/-- Translation of `EntityTypeFilter::matches` (`compiler/context.rs` lines
96-103). -/
def EntityTypeFilter.matches (f : EntityTypeFilter) (typename : QualifiedName) : Bool :=
  if f.permissive then
    f.patterns.isEmpty || f.patterns.any (fun p => p.matches typename)
  else
    f.patterns.any (fun p => p.matches typename)

/-- C3: a filter's match result equals its permissive flag when the pattern
list is empty and otherwise is the disjunction of the per-pattern results; in
particular a permissive filter built from zero patterns matches every
qualified name and a restrictive one matches none. -/
theorem filter_matches_spec (f : EntityTypeFilter) (typename : QualifiedName) :
    (f.matches typename =
      if f.patterns.isEmpty then f.permissive else f.patterns.any (fun p => p.matches typename)) ∧
    (EntityTypeFilter.new_permissive []).matches typename = true ∧
    (EntityTypeFilter.new_restrictive []).matches typename = false := by
  refine ⟨?_, rfl, rfl⟩
  rcases f with ⟨ps, perm⟩
  cases perm <;> cases ps <;> simp [EntityTypeFilter.matches]

/-- Model of Rust `str::split(sep)` at the character-list level: splits at
every occurrence of `sep`, always yielding at least one (possibly empty)
piece. -/
def splitChar (sep : Char) : List Char → List (List Char)
  | [] => [[]]
  | c :: rest =>
    match splitChar sep rest with
    | [] => [[]]
    | w :: ws => if c == sep then [] :: w :: ws else (c :: w) :: ws

/-- Model of Rust `str::rsplit_once(sep)` at the character-list level: splits
at the last occurrence of `sep`, or `none` when `sep` does not occur. -/
def rsplitOnce (sep : Char) : List Char → Option (List Char × List Char)
  | [] => none
  | c :: rest =>
    match rsplitOnce sep rest with
    | some (a, b) => some (c :: a, b)
    | none => if c == sep then some ([], rest) else none

/-- Modelled from the spec: the `SimpleIdentifier` grammar check of
`edmx::attribute_values` (not among the sources) — a valid identifier is a
non-empty ASCII token starting with a letter or underscore and continuing
with letters, digits or underscores. -/
def isValidId (s : String) : Bool :=
  match s.toList with
  | [] => false
  | c :: rest => (c.isAlpha || c == '_') && rest.all (fun d => d.isAlphanum || d == '_')

/-- Translation of `FilterPatternError` (`compiler/context.rs`). -/
inductive FilterPatternError where
  | EmptyPattern
  | InvalidIdentifier (v : String)
deriving DecidableEq

/-- Short-circuiting effectful map for `Except`, modelling Rust's
`collect::<Result<_, _>>()` over an iterator: the first error aborts. -/
def mapME (f : α → Except ε β) : List α → Except ε (List β)
  | [] => .ok []
  | a :: l =>
    match f a with
    | .error e => .error e
    | .ok b =>
      match mapME f l with
      | .error e => .error e
      | .ok bs => .ok (b :: bs)

/-- Parse of one name-alternation token inside `EntityTypeFilterPattern::from_str`. -/
def parseNameToken (id : String) : Except FilterPatternError String :=
  if isValidId id then .ok id else .error (.InvalidIdentifier id)

/-- Parse of one namespace segment inside `EntityTypeFilterPattern::from_str`:
`*` is the wildcard, anything else must be a valid identifier. -/
def parseNsToken (id : String) : Except FilterPatternError (Option String) :=
  if id == "*" then .ok none
  else if isValidId id then .ok (some id)
  else .error (.InvalidIdentifier id)

/-- Translation of `EntityTypeFilterPattern::from_str` (`compiler/context.rs`
lines 141-174): split on `.`, pop the final name segment (an alternation or
`*`), parse the remaining segments as exact identifiers or wildcards. -/
def EntityTypeFilterPattern.from_str (s : String) : Except FilterPatternError EntityTypeFilterPattern :=
  match ((splitChar '.' s.toList).map (fun w => (⟨w⟩ : String))).getLast? with
  | none => .error .EmptyPattern
  | some name_pattern =>
    match (if name_pattern == "*" then Except.ok []
           else mapME parseNameToken ((splitChar '|' name_pattern.toList).map (fun w => (⟨w⟩ : String)))) with
    | .error e => .error e
    | .ok names =>
      match mapME parseNsToken ((splitChar '.' s.toList).map (fun w => (⟨w⟩ : String))).dropLast with
      | .error e => .error e
      | .ok ns_ids => .ok ⟨ns_ids, names⟩

/-- Modelled from the spec: the `PropertyName` validation of
`edmx::attribute_values` (not among the sources); the error payload carries
the offending token. -/
def parsePropertyName (s : String) : Except String String :=
  if isValidId s then .ok s else .error s

/-- Translation of `PropetyPatternError` (`compiler/context.rs`), keeping the
source's spelling. -/
inductive PropetyPatternError where
  | NoPropertyNameDefined
  | TypeFilterPattern (v : FilterPatternError)
  | PropertyName (v : String)
deriving DecidableEq

/-- Translation of `PropertyPattern` (`compiler/context.rs`). -/
structure PropertyPattern where
  type_filter : EntityTypeFilterPattern
  property_name : String
deriving DecidableEq

/-- Translation of `PropertyPattern::from_str` (`compiler/context.rs` lines
256-270): split at the last `/`; its absence is `NoPropertyNameDefined`. -/
def PropertyPattern.from_str (s : String) : Except PropetyPatternError PropertyPattern :=
  match rsplitOnce '/' s.toList with
  | none => .error .NoPropertyNameDefined
  | some (tf, pn) =>
    match EntityTypeFilterPattern.from_str ⟨tf⟩ with
    | .error e => .error (.TypeFilterPattern e)
    | .ok type_filter =>
      match parsePropertyName ⟨pn⟩ with
      | .error e => .error (.PropertyName e)
      | .ok property_name => .ok ⟨type_filter, property_name⟩

theorem splitChar_ne_nil (sep : Char) (cs : List Char) : splitChar sep cs ≠ [] := by
  cases cs with
  | nil => simp [splitChar]
  | cons c rest =>
    simp only [splitChar]
    cases splitChar sep rest with
    | nil => simp
    | cons w ws =>
      by_cases h : c == sep <;> simp [h]

theorem splitChar_no_sep (sep : Char) (cs : List Char) (h : sep ∉ cs) :
    splitChar sep cs = [cs] := by
  induction cs with
  | nil => rfl
  | cons c rest ih =>
    simp only [List.mem_cons, not_or] at h
    simp only [splitChar, ih h.2]
    have hc : (c == sep) = false := by
      simp only [beq_eq_false_iff_ne, ne_eq]
      exact fun hcc => h.1 hcc.symm
    simp [hc]

theorem splitChar_append (sep : Char) (w rest : List Char) (h : sep ∉ w) :
    splitChar sep (w ++ sep :: rest) = w :: splitChar sep rest := by
  induction w with
  | nil =>
    simp only [List.nil_append, splitChar]
    have hne := splitChar_ne_nil sep rest
    rcases List.exists_cons_of_ne_nil hne with ⟨a, as, has⟩
    rw [has]
    simp
  | cons c cw ih =>
    simp only [List.mem_cons, not_or] at h
    simp only [List.cons_append, splitChar, List.append_eq]
    rw [ih h.2]
    have hc : (c == sep) = false := by
      simp only [beq_eq_false_iff_ne, ne_eq]
      exact fun hcc => h.1 hcc.symm
    simp [hc]

theorem validId_char_ne (d : Char) (h : (d.isAlphanum || d == '_') = true) :
    d ≠ '.' ∧ d ≠ '|' ∧ d ≠ '/' := by
  refine ⟨?_, ?_, ?_⟩ <;> rintro rfl <;> revert h <;> decide

theorem isValidId_props (s : String) (h : isValidId s = true) :
    '.' ∉ s.toList ∧ '|' ∉ s.toList ∧ s ≠ "*" := by
  unfold isValidId at h
  rcases hs : s.toList with _ | ⟨c, rest⟩
  · rw [hs] at h; simp at h
  · rw [hs] at h
    simp only [Bool.and_eq_true] at h
    have hc : (c.isAlphanum || c == '_') = true := by
      rcases Bool.or_eq_true_iff.mp h.1 with h1 | h1
      · exact Bool.or_eq_true_iff.mpr (Or.inl (by simp [Char.isAlphanum, h1]))
      · exact Bool.or_eq_true_iff.mpr (Or.inr h1)
    have hrest := List.all_eq_true.mp h.2
    constructor
    · intro hmem
      rcases List.mem_cons.mp hmem with h1 | h1
      · exact (validId_char_ne c hc).1 h1.symm
      · exact (validId_char_ne _ (hrest _ h1)).1 rfl
    constructor
    · intro hmem
      rcases List.mem_cons.mp hmem with h1 | h1
      · exact (validId_char_ne c hc).2.1 h1.symm
      · exact (validId_char_ne _ (hrest _ h1)).2.1 rfl
    · intro hss
      subst hss
      simp at hs
      rcases hs with ⟨h1, _⟩
      subst h1
      revert hc
      decide

theorem string_mk_toList (s : String) : (⟨s.toList⟩ : String) = s := rfl

theorem getLast?_cons_cons (a b : α) (l : List α) :
    (a :: b :: l).getLast? = (b :: l).getLast? := by
  simp [List.getLast?]

theorem matches_characterization (p : EntityTypeFilterPattern) (N : QualifiedName) :
    p.matches N = true ↔
      (N.«namespace».length = p.ns_ids.length ∧
       (∀ (i : Nat) (pid : String), p.ns_ids[i]? = some (some pid) → N.«namespace»[i]? = some pid) ∧
       (p.names = [] ∨ N.name ∈ p.names)) := by
  unfold EntityTypeFilterPattern.matches
  by_cases h1 : (!p.names.isEmpty && !p.names.contains N.name) = true
  · rw [if_pos h1]
    simp only [Bool.and_eq_true, Bool.not_eq_true', List.isEmpty_eq_false_iff_exists_mem] at h1
    simp only [Bool.false_eq_true, false_iff, not_and, not_or]
    intro _ _
    constructor
    · rcases h1.1 with ⟨x, hx⟩
      intro hnil
      rw [hnil] at hx
      exact List.not_mem_nil x hx
    · intro hmem
      have hc : p.names.contains N.name = true := List.elem_eq_true_of_mem hmem
      rw [hc] at h1
      exact Bool.noConfusion h1.2
  · rw [if_neg h1]
    have hnames : p.names = [] ∨ N.name ∈ p.names := by
      simp only [Bool.and_eq_true, Bool.not_eq_true', not_and] at h1
      by_cases he : p.names.isEmpty
      · exact Or.inl (List.isEmpty_iff.mp he)
      · right
        have := h1 (by simp [he])
        have hc : p.names.contains N.name = true := by simpa using this
        exact List.elem_iff.mp hc
    by_cases h2 : (N.«namespace».length != p.ns_ids.length) = true
    · rw [if_pos h2]
      simp only [bne_iff_ne, ne_eq] at h2
      simp only [Bool.false_eq_true, false_iff, not_and]
      intro hlen
      exact absurd hlen h2
    · rw [if_neg h2]
      simp only [bne_iff_ne, ne_eq, not_not] at h2
      simp only [List.all_eq_true, List.mem_range]
      constructor
      · intro hall
        refine ⟨h2, ?_, hnames⟩
        intro i pid hpid
        have hilt : i < p.ns_ids.length := by
          by_contra hge
          rw [List.getElem?_eq_none (by omega)] at hpid
          exact Option.noConfusion hpid
        have hiN : i < N.«namespace».length := by omega
        have := hall i hiN
        rw [hpid] at this
        unfold CompiledNamespace.get_id at this
        rw [List.getElem?_eq_getElem hiN] at this
        simp only [beq_iff_eq] at this
        rw [List.getElem?_eq_getElem hiN, this]
      · rintro ⟨-, hseg, -⟩
        intro i hi
        rcases hp : p.ns_ids[i]? with _ | pid
        · simp
        · rcases pid with _ | pid
          · simp
          · have := hseg i pid hp
            unfold CompiledNamespace.get_id
            rw [this]
            simp

/-- C4: `EntityTypeFilterPattern::matches` holds exactly when the namespace
segment counts agree, every exact segment matcher equals the candidate's
segment at the same position, and the terminal-name set is empty or holds the
candidate's name; consequently the pattern parsed from `"*.*." ++ N.name`
matches `N` exactly when `N`'s namespace has exactly two segments. -/
theorem pattern_match_spec (p : EntityTypeFilterPattern) (N : QualifiedName) :
    (p.matches N = true ↔
      (N.«namespace».length = p.ns_ids.length ∧
       (∀ (i : Nat) (pid : String), p.ns_ids[i]? = some (some pid) → N.«namespace»[i]? = some pid) ∧
       (p.names = [] ∨ N.name ∈ p.names))) ∧
    (isValidId N.name = true →
      EntityTypeFilterPattern.from_str ("*.*." ++ N.name) = .ok ⟨[none, none], [N.name]⟩ ∧
      (EntityTypeFilterPattern.matches ⟨[none, none], [N.name]⟩ N = true ↔
        N.«namespace».length = 2)) := by
  refine ⟨matches_characterization p N, fun hvalid => ⟨?_, ?_⟩⟩
  · obtain ⟨hdot, hpipe, hstar⟩ := isValidId_props N.name hvalid
    have htl : ("*.*." ++ N.name).toList = '*' :: '.' :: '*' :: '.' :: N.name.toList := rfl
    have hsplit : splitChar '.' (("*.*." ++ N.name).toList) =
        ['*'] :: ['*'] :: [N.name.toList] := by
      rw [htl]
      have e1 : '*' :: '.' :: '*' :: '.' :: N.name.toList =
          ['*'] ++ '.' :: ('*' :: '.' :: N.name.toList) := rfl
      rw [e1, splitChar_append '.' ['*'] _ (by decide)]
      have e2 : '*' :: '.' :: N.name.toList = ['*'] ++ '.' :: N.name.toList := rfl
      rw [e2, splitChar_append '.' ['*'] _ (by decide)]
      rw [splitChar_no_sep '.' N.name.toList hdot]
    unfold EntityTypeFilterPattern.from_str
    rw [hsplit]
    simp only [List.map_cons, List.map_nil, string_mk_toList]
    rw [getLast?_cons_cons, getLast?_cons_cons]
    simp only [List.getLast?_singleton]
    have hne : (N.name == "*") = false := by
      simp only [beq_eq_false_iff_ne, ne_eq]
      exact hstar
    rw [if_neg (by simp [hne])]
    rw [splitChar_no_sep '|' N.name.toList hpipe]
    simp only [List.map_cons, List.map_nil, string_mk_toList]
    unfold mapME parseNameToken
    rw [if_pos hvalid]
    simp only [mapME]
    rfl
  · rw [matches_characterization]
    constructor
    · rintro ⟨hlen, -, -⟩
      simpa using hlen
    · intro hlen
      refine ⟨by simpa using hlen, ?_, Or.inr (by simp)⟩
      intro i pid hpid
      rcases i with _ | _ | i <;> simp at hpid

/-- C4 witness: the contract instantiated at the qualified name
`["X","Y"]::Count`, discharging the identifier-validity hypothesis. -/
theorem pattern_match_spec_witness :
    EntityTypeFilterPattern.from_str ("*.*." ++ "Count") = .ok ⟨[none, none], ["Count"]⟩ ∧
    EntityTypeFilterPattern.matches ⟨[none, none], ["Count"]⟩ ⟨["X", "Y"], "Count"⟩ = true := by
  have h := (pattern_match_spec ⟨[none, none], ["Count"]⟩ ⟨["X", "Y"], "Count"⟩).2 (by decide)
  exact ⟨h.1, h.2.mpr rfl⟩

theorem parseNameToken_error (x : String) (e : FilterPatternError)
    (h : parseNameToken x = .error e) :
    e = .InvalidIdentifier x ∧ isValidId x = false := by
  unfold parseNameToken at h
  by_cases hv : isValidId x = true
  · rw [if_pos hv] at h
    exact Except.noConfusion h
  · rw [if_neg hv] at h
    simp only [Except.error.injEq] at h
    exact ⟨h.symm, by simpa using hv⟩

theorem parseNsToken_error (x : String) (e : FilterPatternError)
    (h : parseNsToken x = .error e) :
    e = .InvalidIdentifier x ∧ isValidId x = false ∧ x ≠ "*" := by
  unfold parseNsToken at h
  by_cases hs : (x == "*") = true
  · rw [if_pos hs] at h
    exact Except.noConfusion h
  · rw [if_neg hs] at h
    by_cases hv : isValidId x = true
    · rw [if_pos hv] at h
      exact Except.noConfusion h
    · rw [if_neg hv] at h
      simp only [Except.error.injEq] at h
      exact ⟨h.symm, by simpa using hv, by simpa using hs⟩

theorem mapME_error_mem (f : α → Except ε β) (l : List α) (e : ε)
    (h : mapME f l = .error e) : ∃ x ∈ l, f x = .error e := by
  induction l with
  | nil => exact Except.noConfusion h
  | cons a t ih =>
    unfold mapME at h
    cases hfa : f a with
    | error ea =>
      rw [hfa] at h
      simp only [Except.error.injEq] at h
      exact ⟨a, List.mem_cons_self a t, by rw [hfa, h]⟩
    | ok b =>
      rw [hfa] at h
      cases hm : mapME f t with
      | error e2 =>
        rw [hm] at h
        simp only [Except.error.injEq] at h
        obtain ⟨x, hx, hfx⟩ := ih (by rw [hm, h])
        exact ⟨x, List.mem_cons_of_mem a hx, hfx⟩
      | ok bs =>
        rw [hm] at h
        exact Except.noConfusion h

theorem mapME_error_exists (f : α → Except ε β) (l : List α)
    (h : ∃ x ∈ l, ∃ e, f x = .error e) : ∃ e, mapME f l = .error e := by
  induction l with
  | nil => simp at h
  | cons a t ih =>
    obtain ⟨x, hx, e, hfx⟩ := h
    unfold mapME
    cases hfa : f a with
    | error ea => exact ⟨ea, rfl⟩
    | ok b =>
      rcases List.mem_cons.mp hx with rfl | hxt
      · rw [hfa] at hfx
        exact Except.noConfusion hfx
      · obtain ⟨e2, hm⟩ := ih ⟨x, hxt, e, hfx⟩
        rw [hm]
        exact ⟨e2, rfl⟩

theorem getLast?_of_ne_nil (l : List α) (h : l ≠ []) : ∃ a, l.getLast? = some a := by
  induction l with
  | nil => exact absurd rfl h
  | cons a t ih =>
    cases t with
    | nil => exact ⟨a, rfl⟩
    | cons b u =>
      obtain ⟨x, hx⟩ := ih (by simp)
      exact ⟨x, by rw [getLast?_cons_cons, hx]⟩

/-- C7: parsing an `EntityTypeFilterPattern` fails with `EmptyPattern` exactly
when the split yields no name segment (which never happens: splitting always
yields at least one piece); it fails with `InvalidIdentifier` carrying an
offending token whenever any non-wildcard segment fails identifier
validation; and parsing a `PropertyPattern` fails with
`NoPropertyNameDefined` exactly when the string has no `/` separator. -/
theorem parse_error_spec (s : String) :
    (EntityTypeFilterPattern.from_str s = .error .EmptyPattern ↔
      (splitChar '.' s.toList).map (fun w => (⟨w⟩ : String)) = []) ∧
    ((∃ np : String,
        ((splitChar '.' s.toList).map (fun w => (⟨w⟩ : String))).getLast? = some np ∧
        ((np ≠ "*" ∧
            ∃ tok ∈ (splitChar '|' np.toList).map (fun w => (⟨w⟩ : String)),
              isValidId tok = false) ∨
          (∃ seg ∈ ((splitChar '.' s.toList).map (fun w => (⟨w⟩ : String))).dropLast,
              seg ≠ "*" ∧ isValidId seg = false))) →
      ∃ t, isValidId t = false ∧
        EntityTypeFilterPattern.from_str s = .error (.InvalidIdentifier t)) ∧
    (PropertyPattern.from_str s = .error .NoPropertyNameDefined ↔
      rsplitOnce '/' s.toList = none) := by
  have hids : (splitChar '.' s.toList).map (fun w => (⟨w⟩ : String)) ≠ [] := by
    intro h
    exact splitChar_ne_nil '.' s.toList (List.map_eq_nil_iff.mp h)
  obtain ⟨np0, hnp0⟩ := getLast?_of_ne_nil _ hids
  refine ⟨?_, ?_, ?_⟩
  · refine iff_of_false ?_ hids
    simp only [EntityTypeFilterPattern.from_str, hnp0]
    by_cases hstar : (np0 == "*") = true
    · rw [if_pos hstar]
      cases hm2 : mapME parseNsToken
          ((splitChar '.' s.toList).map (fun w => (⟨w⟩ : String))).dropLast with
      | error e =>
        obtain ⟨x, -, hfx⟩ := mapME_error_mem _ _ _ hm2
        obtain ⟨he, -, -⟩ := parseNsToken_error _ _ hfx
        subst he
        intro hcontra
        simp at hcontra
      | ok ns_ids =>
        intro hcontra
        exact Except.noConfusion hcontra
    · rw [if_neg hstar]
      cases hm1 : mapME parseNameToken
          ((splitChar '|' np0.toList).map (fun w => (⟨w⟩ : String))) with
      | error e =>
        obtain ⟨x, -, hfx⟩ := mapME_error_mem _ _ _ hm1
        obtain ⟨he, -⟩ := parseNameToken_error _ _ hfx
        subst he
        intro hcontra
        simp at hcontra
      | ok names =>
        cases hm2 : mapME parseNsToken
            ((splitChar '.' s.toList).map (fun w => (⟨w⟩ : String))).dropLast with
        | error e =>
          obtain ⟨x, -, hfx⟩ := mapME_error_mem _ _ _ hm2
          obtain ⟨he, -, -⟩ := parseNsToken_error _ _ hfx
          subst he
          intro hcontra
          simp at hcontra
        | ok ns_ids =>
          intro hcontra
          exact Except.noConfusion hcontra
  · rintro ⟨np, hnp, hcase⟩
    rw [hnp0] at hnp
    simp only [Option.some.injEq] at hnp
    subst hnp
    simp only [EntityTypeFilterPattern.from_str, hnp0]
    rcases hcase with ⟨hne, tok, htok, hinv⟩ | ⟨seg, hseg, hsegne, hseginv⟩
    · rw [if_neg (by simpa using hne)]
      have herr : ∃ e, mapME parseNameToken
          ((splitChar '|' np0.toList).map (fun w => (⟨w⟩ : String))) = .error e := by
        refine mapME_error_exists _ _ ⟨tok, htok, .InvalidIdentifier tok, ?_⟩
        unfold parseNameToken
        rw [if_neg (by simp [hinv])]
      obtain ⟨e, hme⟩ := herr
      obtain ⟨y, -, hfy⟩ := mapME_error_mem _ _ _ hme
      obtain ⟨he, hyinv⟩ := parseNameToken_error _ _ hfy
      subst he
      rw [hme]
      exact ⟨y, hyinv, rfl⟩
    · have herr : ∃ e, mapME parseNsToken
          ((splitChar '.' s.toList).map (fun w => (⟨w⟩ : String))).dropLast = .error e := by
        refine mapME_error_exists _ _ ⟨seg, hseg, .InvalidIdentifier seg, ?_⟩
        unfold parseNsToken
        rw [if_neg (by simpa using hsegne), if_neg (by simp [hseginv])]
      obtain ⟨e2, hme2⟩ := herr
      obtain ⟨y2, -, hfy2⟩ := mapME_error_mem _ _ _ hme2
      obtain ⟨he2, hy2inv, -⟩ := parseNsToken_error _ _ hfy2
      subst he2
      by_cases hstar : (np0 == "*") = true
      · rw [if_pos hstar, hme2]
        exact ⟨y2, hy2inv, rfl⟩
      · rw [if_neg hstar]
        cases hm1 : mapME parseNameToken
            ((splitChar '|' np0.toList).map (fun w => (⟨w⟩ : String))) with
        | error e1 =>
          obtain ⟨y1, -, hfy1⟩ := mapME_error_mem _ _ _ hm1
          obtain ⟨he1, hy1inv⟩ := parseNameToken_error _ _ hfy1
          subst he1
          exact ⟨y1, hy1inv, rfl⟩
        | ok names =>
          rw [hme2]
          exact ⟨y2, hy2inv, rfl⟩
  · cases hrs : rsplitOnce '/' s.toList with
    | none =>
      refine iff_of_true ?_ rfl
      unfold PropertyPattern.from_str
      rw [hrs]
    | some ab =>
      refine iff_of_false ?_ (by simp [hrs])
      unfold PropertyPattern.from_str
      rw [hrs]
      intro hcontra
      repeat' split at hcontra
      all_goals simp_all

/-- C7 witness: the invalid-identifier branch instantiated at the concrete
pattern string `"Ok.9bad.*"`, whose middle namespace segment fails identifier
validation. -/
theorem parse_error_spec_witness :
    ∃ t, isValidId t = false ∧
      EntityTypeFilterPattern.from_str "Ok.9bad.*" = .error (.InvalidIdentifier t) :=
  (parse_error_spec "Ok.9bad.*").2.1
    ⟨"*", by decide, Or.inr ⟨"9bad", by decide, by decide, by decide⟩⟩

/-- Translation of `CompiledPropertyType` (`compiler/compiled_properties.rs`):
a property references one value or a collection of values of a type. -/
inductive CompiledPropertyType where
  | One (v : QualifiedName)
  | CollectionOf (v : QualifiedName)
deriving DecidableEq

/-- Translation of `CompiledPropertyType::map` (`compiler/compiled_properties.rs`
lines 61-72): apply a transform to the referenced qualified name, preserving
the variant. -/
def CompiledPropertyType.map (t : CompiledPropertyType) (f : QualifiedName → QualifiedName) :
    CompiledPropertyType :=
  match t with
  | .One v => .One (f v)
  | .CollectionOf v => .CollectionOf (f v)

/-- Translation of `CompiledProperty` (`compiler/compiled_properties.rs`); the
odata/redfish metadata fields are opaque payloads never inspected by the
operations verified here and are omitted. -/
structure CompiledProperty where
  name : String
  ptype : CompiledPropertyType
deriving DecidableEq

/-- Translation of `CompiledNavProperty` (`compiler/compiled_properties.rs`). -/
structure CompiledNavProperty where
  name : String
  ptype : CompiledPropertyType
deriving DecidableEq

/-- Translation of the `MapType` impl for `CompiledProperty`. -/
def CompiledProperty.map_type (p : CompiledProperty) (f : QualifiedName → QualifiedName) :
    CompiledProperty :=
  { p with ptype := p.ptype.map f }

/-- Translation of the `MapType` impl for `CompiledNavProperty`. -/
def CompiledNavProperty.map_type (p : CompiledNavProperty) (f : QualifiedName → QualifiedName) :
    CompiledNavProperty :=
  { p with ptype := p.ptype.map f }

/-- Translation of `CompiledProperties` (`compiler/compiled_properties.rs`). -/
structure CompiledProperties where
  properties : List CompiledProperty
  nav_properties : List CompiledNavProperty
deriving DecidableEq

/-- Translation of `CompiledProperties::rev_join`
(`compiler/compiled_properties.rs` lines 37-46): unzip the per-type lists,
reverse, and concatenate. -/
def CompiledProperties.rev_join (src : List CompiledProperties) : CompiledProperties :=
  { properties := ((src.map (fun v => v.properties)).reverse).flatten
    nav_properties := ((src.map (fun v => v.nav_properties)).reverse).flatten }

/-- C5: `rev_join` concatenates the per-type property and nav-property lists
in reversed input order, so a derived-to-root sequence comes out
ancestor-first: `rev_join [A,B,C]` yields `C ++ B ++ A` for both lists. -/
theorem rev_join_spec :
    (∀ (src : List CompiledProperties),
      (CompiledProperties.rev_join src).properties =
        (src.reverse.map (fun v => v.properties)).flatten ∧
      (CompiledProperties.rev_join src).nav_properties =
        (src.reverse.map (fun v => v.nav_properties)).flatten) ∧
    (∀ (A B C : CompiledProperties),
      (CompiledProperties.rev_join [A, B, C]).properties =
        C.properties ++ B.properties ++ A.properties ∧
      (CompiledProperties.rev_join [A, B, C]).nav_properties =
        C.nav_properties ++ B.nav_properties ++ A.nav_properties) := by
  constructor
  · intro src
    constructor <;> simp [CompiledProperties.rev_join, List.map_reverse]
  · intro A B C
    constructor <;> simp [CompiledProperties.rev_join]

/-- Translation of `PropertyFilter` (`compiler/context.rs`): the search index
keyed by property name, as an association list. -/
structure PropertyFilter where
  search_index : List (String × EntityTypeFilter)

/-- One step of the grouping fold inside `PropertyFilter::new`, modelling
`HashMap::entry(k).or_default().push(v)`: append `v` to the entry of `k`,
creating the entry when absent. -/
def groupInsert (m : List (String × List EntityTypeFilterPattern)) (k : String)
    (v : EntityTypeFilterPattern) : List (String × List EntityTypeFilterPattern) :=
  match m with
  | [] => [(k, [v])]
  | (k', vs) :: rest =>
    if k' == k then (k', vs ++ [v]) :: rest else (k', vs) :: groupInsert rest k v

/-- Translation of `PropertyFilter::new` (`compiler/context.rs` lines 220-236):
group the patterns by property name and build one restrictive filter per
group. -/
def PropertyFilter.new (patterns : List PropertyPattern) : PropertyFilter :=
  ⟨(patterns.foldl (fun m p => groupInsert m p.property_name p.type_filter) []).map
    (fun kv => (kv.1, EntityTypeFilter.new_restrictive kv.2))⟩

/-- Translation of `PropertyFilter::matches` (`compiler/context.rs` lines
239-244): look the property name up; absent means no match, present delegates
to the group's restrictive filter. -/
def PropertyFilter.matches (f : PropertyFilter) (qtype : QualifiedName) (pname : String) : Bool :=
  match f.search_index.find? (fun kv => kv.1 == pname) with
  | some kv => kv.2.matches qtype
  | none => false

/-- Pattern group recorded for key `k` in the grouping accumulator, empty when
the key is absent. -/
def findPairs (m : List (String × List EntityTypeFilterPattern)) (k : String) :
    List EntityTypeFilterPattern :=
  match m.find? (fun kv => kv.1 == k) with
  | some kv => kv.2
  | none => []

theorem findPairs_groupInsert (m : List (String × List EntityTypeFilterPattern))
    (kn : String) (v : EntityTypeFilterPattern) (k : String) :
    findPairs (groupInsert m kn v) k =
      if (kn == k) = true then findPairs m k ++ [v] else findPairs m k := by
  induction m with
  | nil =>
    by_cases h : (kn == k) = true
    · simp [groupInsert, findPairs, h]
    · simp only [Bool.not_eq_true] at h
      simp [groupInsert, findPairs, h]
  | cons hd rest ih =>
    obtain ⟨k', vs⟩ := hd
    by_cases hk : (k' == kn) = true
    · have hkeq : k' = kn := by simpa using hk
      subst hkeq
      by_cases hkk : (k' == k) = true
      · have : k' = k := by simpa using hkk
        subst this
        simp [groupInsert, findPairs, hkk]
      · simp only [Bool.not_eq_true] at hkk
        simp [groupInsert, findPairs, hk, hkk]
    · simp only [groupInsert, if_neg hk]
      by_cases hkk : (k' == k) = true
      · have hke : k' = k := by simpa using hkk
        have hnk : (kn == k) = false := by
          simp only [beq_eq_false_iff_ne, ne_eq]
          intro hc
          subst hc
          subst hke
          simp at hk
        simp [findPairs, hkk, hnk]
      · simp only [Bool.not_eq_true] at hkk
        simp only [findPairs, List.find?_cons, hkk]
        exact ih

theorem foldl_groupInsert (ps : List PropertyPattern)
    (m : List (String × List EntityTypeFilterPattern)) (k : String) :
    findPairs (ps.foldl (fun m p => groupInsert m p.property_name p.type_filter) m) k =
      findPairs m k ++
        (ps.filter (fun p => p.property_name == k)).map (fun p => p.type_filter) := by
  induction ps generalizing m with
  | nil => simp
  | cons p ps ih =>
    simp only [List.foldl_cons, ih, findPairs_groupInsert]
    by_cases h : (p.property_name == k) = true
    · simp [h, List.filter_cons, List.append_assoc]
    · simp only [Bool.not_eq_true] at h
      simp [h, List.filter_cons]

theorem find?_map_restrictive (l : List (String × List EntityTypeFilterPattern)) (pname : String) :
    (l.map (fun kv => (kv.1, EntityTypeFilter.new_restrictive kv.2))).find?
        (fun kv => kv.1 == pname) =
      (l.find? (fun kv => kv.1 == pname)).map
        (fun kv => (kv.1, EntityTypeFilter.new_restrictive kv.2)) := by
  induction l with
  | nil => rfl
  | cons kv rest ih =>
    by_cases h : (kv.1 == pname) = true
    · simp [List.find?_cons, h]
    · simp only [Bool.not_eq_true] at h
      simp [List.find?_cons, h, ih]

theorem any_map_filter (l : List PropertyPattern) (q : QualifiedName) (pname : String) :
    ((l.filter (fun p => p.property_name == pname)).map (fun p => p.type_filter)).any
      (fun p => p.matches q) =
    l.any (fun pp => pp.property_name == pname && pp.type_filter.matches q) := by
  induction l with
  | nil => rfl
  | cons a t ih =>
    by_cases h : (a.property_name == pname) = true
    · simp only [List.filter_cons, h, if_true, List.map_cons, List.any_cons, ih]
      simp [h]
    · simp only [Bool.not_eq_true] at h
      simp only [List.filter_cons, h, Bool.false_eq_true, if_false, List.any_cons, ih]
      simp [h]

/-- C9: `PropertyFilter::new` groups patterns by property name into one
restrictive filter per name; `matches qtype pname` is false when `pname` never
occurred among the constructing patterns and otherwise equals that restrictive
filter's verdict, i.e. whether some pattern with that property name matches
`qtype`. -/
theorem property_filter_spec (patterns : List PropertyPattern) (qtype : QualifiedName)
    (pname : String) :
    ((PropertyFilter.new patterns).matches qtype pname =
      patterns.any (fun pp => pp.property_name == pname && pp.type_filter.matches qtype)) ∧
    (pname ∉ patterns.map (fun pp => pp.property_name) →
      (PropertyFilter.new patterns).matches qtype pname = false) := by
  have hgrp := foldl_groupInsert patterns [] pname
  rw [show findPairs [] pname = [] from rfl, List.nil_append] at hgrp
  have hmain : (PropertyFilter.new patterns).matches qtype pname =
      patterns.any (fun pp => pp.property_name == pname && pp.type_filter.matches qtype) := by
    unfold PropertyFilter.new PropertyFilter.matches
    rw [find?_map_restrictive]
    rcases hfind : (patterns.foldl
        (fun m p => groupInsert m p.property_name p.type_filter) []).find?
        (fun kv => kv.1 == pname) with _ | kv
    · have hfiltmap : (patterns.filter (fun p => p.property_name == pname)).map
          (fun p => p.type_filter) = [] := by
        rw [← hgrp]
        unfold findPairs
        rw [hfind]
      have hfilt : patterns.filter (fun p => p.property_name == pname) = [] :=
        List.map_eq_nil_iff.mp hfiltmap
      have hany : patterns.any (fun pp =>
          pp.property_name == pname && pp.type_filter.matches qtype) = false := by
        rw [List.any_eq_false]
        intro pp hpp hcontra
        simp only [Bool.and_eq_true] at hcontra
        have : pp ∈ patterns.filter (fun p => p.property_name == pname) :=
          List.mem_filter.mpr ⟨hpp, hcontra.1⟩
        rw [hfilt] at this
        exact List.not_mem_nil pp this
      rw [hfind, hany]
      rfl
    · have hkv : kv.2 = (patterns.filter (fun p => p.property_name == pname)).map
          (fun p => p.type_filter) := by
        rw [← hgrp]
        unfold findPairs
        rw [hfind]
      rw [hfind]
      simp only [Option.map_some']
      show (EntityTypeFilter.new_restrictive kv.2).matches qtype = _
      unfold EntityTypeFilter.new_restrictive EntityTypeFilter.matches
      rw [if_neg (by simp)]
      rw [hkv]
      exact any_map_filter patterns qtype pname
  refine ⟨hmain, fun habs => ?_⟩
  rw [hmain, List.any_eq_false]
  intro pp hpp hcontra
  simp only [Bool.and_eq_true, beq_iff_eq] at hcontra
  exact habs (hcontra.1 ▸ List.mem_map_of_mem (fun pp => pp.property_name) hpp)

/-- C9 witness: the absent-property-name clause instantiated at a concrete
filter and lookup. -/
theorem property_filter_spec_witness :
    (PropertyFilter.new [⟨⟨[none], []⟩, "Links"⟩]).matches ⟨["A"], "T"⟩ "Id" = false :=
  (property_filter_spec [⟨⟨[none], []⟩, "Links"⟩] ⟨["A"], "T"⟩ "Id").2 (by decide)

/-- Modelled from the spec: the payload of a simple type — a type alias with
an underlying type, or an enum-backed scalar (`compiler::SimpleTypeAttrs`, not
among the sources).  The pruning optimizer only carries these values. -/
inductive SimpleTypeAttrs where
  | typeDefinition (underlying : String)
  | enumType (members : List String)
deriving DecidableEq

/-- Modelled from the spec: the `Compiled` IR — qualified-name-keyed maps of
simple, complex and entity types plus root singleton bindings; the hash maps
become association lists (distinct keys), and complex/entity table values are
their resolved `CompiledProperties`. -/
structure Compiled where
  simple_types : List (QualifiedName × SimpleTypeAttrs)
  complex_types : List (QualifiedName × CompiledProperties)
  entity_types : List (QualifiedName × CompiledProperties)
  root_singletons : List (String × QualifiedName)
deriving DecidableEq

/-- Fuelled core of the ancestor walk `while let Some(parent) = namespace.parent()`
(`optimizer/prune_simple_types_namespaces.rs`); fuel `ns.length` suffices
because `parent` shortens the namespace by one segment. -/
def ancestorsGo : Nat → CompiledNamespace → List CompiledNamespace
  | 0, _ => []
  | fuel + 1, ns =>
    match CompiledNamespace.parent ns with
    | none => []
    | some p => p :: ancestorsGo fuel p

/-- All strict ancestors of a namespace, nearest first. -/
def ancestors (ns : CompiledNamespace) : List CompiledNamespace :=
  ancestorsGo ns.length ns

/-- One `*matches.entry(parent).or_insert(0) += 1` update of the count pass,
on the map modelled as a point-wise updated function. -/
def bumpOne (nm : String) (p : CompiledNamespace) (m : String → CompiledNamespace → Nat) :
    String → CompiledNamespace → Nat :=
  fun n ns => if n = nm ∧ ns = p then m n ns + 1 else m n ns

/-- Translation of the count pass of `prune_simple_types_namespaces`
(`optimizer/prune_simple_types_namespaces.rs` lines 46-57): for every
simple-type key, walk its strict ancestors and count one occurrence of the
key's terminal name per ancestor namespace.  The nested hash maps
(`TypeNamespaces`) become a total function that is zero where the code records
no entry. -/
def type_nss (keys : List QualifiedName) : String → CompiledNamespace → Nat :=
  keys.foldl
    (fun m k => (ancestors k.«namespace»).foldl (fun m p => bumpOne k.name p m) m)
    (fun _ _ => 0)

/-- Fuelled core of the replacement-selection climb of
`prune_simple_types_namespaces` (lines 62-79): climb to the parent while the
recorded count of the type name there is exactly one, returning the last
namespace that satisfied this. -/
def find_best (stats : CompiledNamespace → Nat) : Nat → CompiledNamespace → Option CompiledNamespace
  | 0, _ => none
  | fuel + 1, ns =>
    match CompiledNamespace.parent ns with
    | none => none
    | some p =>
      if stats p = 1 then some ((find_best stats fuel p).getD p) else none

/-- Replacement namespace selected for one original namespace. -/
def climb (stats : CompiledNamespace → Nat) (ns : CompiledNamespace) : Option CompiledNamespace :=
  find_best stats ns.length ns

/-- Translation of steps 1-2 of `prune_simple_types_namespaces` (lines 46-90):
the replacement map, collected as an association list over the simple-type
keys. -/
def replacements (input : Compiled) : List (QualifiedName × QualifiedName) :=
  (input.simple_types.map Prod.fst).filterMap (fun orig =>
    (climb (type_nss (input.simple_types.map Prod.fst) orig.name) orig.«namespace»).map
      (fun best => (orig, QualifiedName.mk best orig.name)))

/-- Modelled from the spec: `optimizer::replace` (not among the sources) —
substitute a qualified name found in the replacement map and leave unaffected
references untouched. -/
def replace (t : QualifiedName) (repls : List (QualifiedName × QualifiedName)) : QualifiedName :=
  match repls.find? (fun e => e.1 == t) with
  | some e => e.2
  | none => t

/-- Modelled from the spec: the `PropertiesManipulation` capability (not among
the sources) — apply a qualified-name transform to every property and
navigation property of a compiled type via `MapType`. -/
def CompiledProperties.map_properties (v : CompiledProperties)
    (f : QualifiedName → QualifiedName) : CompiledProperties :=
  { properties := v.properties.map (fun p => p.map_type f)
    nav_properties := v.nav_properties.map (fun p => p.map_type f) }

/-- Translation of `prune_simple_types_namespaces`
(`optimizer/prune_simple_types_namespaces.rs`): drop every simple-type entry
with a replacement, rewrite all property type references through the
replacement map, and keep root singletons untouched. -/
def prune_simple_types_namespaces (input : Compiled) : Compiled :=
  let repls := replacements input
  { simple_types :=
      input.simple_types.filter (fun e => !(repls.any (fun r => r.1 == e.1)))
    complex_types :=
      input.complex_types.map (fun e => (e.1, e.2.map_properties (fun t => replace t repls)))
    entity_types :=
      input.entity_types.map (fun e => (e.1, e.2.map_properties (fun t => replace t repls)))
    root_singletons := input.root_singletons }

theorem parent_some_length {ns p : CompiledNamespace}
    (h : CompiledNamespace.parent ns = some p) : ns.length = p.length + 1 := by
  unfold CompiledNamespace.parent at h
  by_cases hl : ns.length ≤ 1
  · rw [if_pos hl] at h
    exact Option.noConfusion h
  · rw [if_neg hl] at h
    simp only [Option.some.injEq] at h
    subst h
    rw [List.length_dropLast]
    omega

theorem parent_none_iff (ns : CompiledNamespace) :
    CompiledNamespace.parent ns = none ↔ ns.length ≤ 1 := by
  unfold CompiledNamespace.parent
  by_cases hl : ns.length ≤ 1
  · simp [hl]
  · simp [hl]

theorem ancestors_eq_nil {ns : CompiledNamespace}
    (h : CompiledNamespace.parent ns = none) : ancestors ns = [] := by
  have hl : ns.length ≤ 1 := (parent_none_iff ns).mp h
  unfold ancestors
  interval_cases hll : ns.length
  · rfl
  · show ancestorsGo 1 ns = []
    unfold ancestorsGo
    rw [h]

theorem ancestorsGo_succ (fuel : Nat) (ns : CompiledNamespace) :
    ancestorsGo (fuel + 1) ns =
      match CompiledNamespace.parent ns with
      | none => []
      | some p => p :: ancestorsGo fuel p := rfl

theorem ancestors_eq_cons {ns p : CompiledNamespace}
    (h : CompiledNamespace.parent ns = some p) : ancestors ns = p :: ancestors p := by
  have hl : ns.length = p.length + 1 := parent_some_length h
  unfold ancestors
  rw [hl, ancestorsGo_succ, h]

theorem length_lt_of_mem_ancestorsGo :
    ∀ (fuel : Nat) (ns a : CompiledNamespace), a ∈ ancestorsGo fuel ns → a.length < ns.length := by
  intro fuel
  induction fuel with
  | zero => intro ns a h; simp [ancestorsGo] at h
  | succ f ih =>
    intro ns a h
    unfold ancestorsGo at h
    cases hp : CompiledNamespace.parent ns with
    | none =>
      rw [hp] at h
      simp at h
    | some p =>
      rw [hp] at h
      have hlen := parent_some_length hp
      rcases List.mem_cons.mp h with rfl | hmem
      · omega
      · have := ih p a hmem
        omega

theorem length_lt_of_mem_ancestors {ns a : CompiledNamespace} (h : a ∈ ancestors ns) :
    a.length < ns.length :=
  length_lt_of_mem_ancestorsGo ns.length ns a h

theorem ancestorsGo_nodup : ∀ (fuel : Nat) (ns : CompiledNamespace), (ancestorsGo fuel ns).Nodup := by
  intro fuel
  induction fuel with
  | zero => intro ns; simp [ancestorsGo]
  | succ f ih =>
    intro ns
    unfold ancestorsGo
    cases hp : CompiledNamespace.parent ns with
    | none => simp
    | some p =>
      refine List.nodup_cons.mpr ⟨?_, ih p⟩
      intro hmem
      have := length_lt_of_mem_ancestorsGo f p p hmem
      omega

theorem ancestors_nodup (ns : CompiledNamespace) : (ancestors ns).Nodup :=
  ancestorsGo_nodup ns.length ns

theorem bumpOne_foldl (nm : String) (ps : List CompiledNamespace)
    (m : String → CompiledNamespace → Nat) (n : String) (ns : CompiledNamespace) :
    (ps.foldl (fun m p => bumpOne nm p m) m) n ns =
      m n ns + (if n = nm then ps.countP (fun p => ns == p) else 0) := by
  induction ps generalizing m with
  | nil => simp
  | cons p ps ih =>
    rw [List.foldl_cons, ih]
    unfold bumpOne
    by_cases hn : n = nm <;> by_cases hns : ns = p <;>
      simp [hn, hns, List.countP_cons] <;> omega

theorem countP_beq_nodup (ps : List CompiledNamespace) (ns : CompiledNamespace)
    (h : ps.Nodup) :
    ps.countP (fun p => ns == p) = if ns ∈ ps then 1 else 0 := by
  induction ps with
  | nil => simp
  | cons p ps ih =>
    rw [List.countP_cons]
    rcases List.nodup_cons.mp h with ⟨hnp, hnd⟩
    by_cases hns : ns = p
    · subst hns
      rw [ih hnd]
      simp [hnp]
    · rw [ih hnd]
      simp [hns]

/-- Count of simple-type keys sharing terminal name `n` that have `ns` as a
strict ancestor — the claim's `cnt(ns)` written directly as a count. -/
def specCnt (keys : List QualifiedName) (n : String) (ns : CompiledNamespace) : Nat :=
  (keys.filter (fun k => k.name == n && decide (ns ∈ ancestors k.«namespace»))).length

theorem type_nss_foldl (keys : List QualifiedName)
    (m0 : String → CompiledNamespace → Nat) (n : String) (ns : CompiledNamespace) :
    (keys.foldl
        (fun m k => (ancestors k.«namespace»).foldl (fun m p => bumpOne k.name p m) m) m0) n ns =
      m0 n ns +
        keys.countP (fun k => k.name == n && decide (ns ∈ ancestors k.«namespace»)) := by
  induction keys generalizing m0 with
  | nil => simp
  | cons k keys ih =>
    rw [List.foldl_cons, ih, bumpOne_foldl, List.countP_cons]
    rw [countP_beq_nodup _ _ (ancestors_nodup k.«namespace»)]
    by_cases hn : n = k.name
    · subst hn
      by_cases hm : ns ∈ ancestors k.«namespace» <;> simp [hm] <;> omega
    · have hb : (k.name == n) = false := by
        simp only [beq_eq_false_iff_ne, ne_eq]
        exact fun hc => hn hc.symm
      simp [hn, hb]

/-- The fold-built statistics of the count pass equal the direct count: the
entry of `(n, ns)` holds how many simple-type keys named `n` have `ns` among
their strict ancestors (zero when the code records no entry). -/
theorem type_nss_eq_specCnt (keys : List QualifiedName) (n : String) (ns : CompiledNamespace) :
    type_nss keys n ns = specCnt keys n ns := by
  unfold type_nss specCnt
  rw [type_nss_foldl]
  simp [List.countP_eq_length_filter]

theorem find_best_succ (stats : CompiledNamespace → Nat) (fuel : Nat) (ns : CompiledNamespace) :
    find_best stats (fuel + 1) ns =
      match CompiledNamespace.parent ns with
      | none => none
      | some p => if stats p = 1 then some ((find_best stats fuel p).getD p) else none := rfl

theorem climb_eq (stats : CompiledNamespace → Nat) (ns : CompiledNamespace) :
    climb stats ns =
      match CompiledNamespace.parent ns with
      | none => none
      | some p => if stats p = 1 then some ((climb stats p).getD p) else none := by
  unfold climb
  cases hl : ns.length with
  | zero =>
    have hp : CompiledNamespace.parent ns = none := (parent_none_iff ns).mpr (by omega)
    rw [hp]
    rfl
  | succ f =>
    rw [find_best_succ]
    cases hp : CompiledNamespace.parent ns with
    | none => rfl
    | some p =>
      have hlen := parent_some_length hp
      have hf : f = p.length := by omega
      rw [hf]

theorem find_best_none (stats : CompiledNamespace → Nat) :
    ∀ (fuel : Nat) (ns : CompiledNamespace), ns.length ≤ fuel →
      find_best stats fuel ns = none →
      ∀ q, CompiledNamespace.parent ns = some q → stats q ≠ 1 := by
  intro fuel ns hlen h q hq
  cases fuel with
  | zero =>
    have : CompiledNamespace.parent ns = none := (parent_none_iff ns).mpr (by omega)
    rw [this] at hq
    exact Option.noConfusion hq
  | succ f =>
    rw [find_best_succ, hq] at h
    have h2 : (if stats q = 1 then some ((find_best stats f q).getD q) else none) =
        (none : Option CompiledNamespace) := h
    by_cases hs : stats q = 1
    · rw [if_pos hs] at h2
      exact Option.noConfusion h2
    · exact hs

theorem find_best_some (stats : CompiledNamespace → Nat) :
    ∀ (fuel : Nat) (ns best : CompiledNamespace), ns.length ≤ fuel →
      find_best stats fuel ns = some best →
      best ∈ ancestors ns ∧
      (∀ a ∈ ancestors ns, best.length ≤ a.length → stats a = 1) ∧
      (∀ q, CompiledNamespace.parent best = some q → stats q ≠ 1) := by
  intro fuel
  induction fuel with
  | zero =>
    intro ns best _ h
    exact Option.noConfusion h
  | succ f ih =>
    intro ns best hlen h
    rw [find_best_succ] at h
    cases hp : CompiledNamespace.parent ns with
    | none =>
      rw [hp] at h
      exact Option.noConfusion h
    | some p =>
      rw [hp] at h
      have h2 : (if stats p = 1 then some ((find_best stats f p).getD p) else none) =
          some best := h
      have hplen := parent_some_length hp
      by_cases hs : stats p = 1
      · rw [if_pos hs] at h2
        simp only [Option.some.injEq] at h2
        have hanc := ancestors_eq_cons hp
        have hpf : p.length ≤ f := by omega
        cases hrec : find_best stats f p with
        | none =>
          rw [hrec] at h2
          simp only [Option.getD_none] at h2
          subst h2
          refine ⟨by rw [hanc]; exact List.mem_cons_self _ _, ?_, ?_⟩
          · intro a ha hle
            rw [hanc] at ha
            rcases List.mem_cons.mp ha with rfl | hmem
            · exact hs
            · have := length_lt_of_mem_ancestors hmem
              omega
          · exact find_best_none stats f p hpf hrec
        | some b =>
          rw [hrec] at h2
          simp only [Option.getD_some] at h2
          subst h2
          obtain ⟨hmem, hbetween, hstop⟩ := ih p b hpf hrec
          refine ⟨by rw [hanc]; exact List.mem_cons_of_mem _ hmem, ?_, hstop⟩
          intro a ha hle
          rw [hanc] at ha
          rcases List.mem_cons.mp ha with rfl | hmem2
          · exact hs
          · exact hbetween a hmem2 hle
      · rw [if_neg hs] at h2
        exact Option.noConfusion h2

theorem climb_some_iff (stats : CompiledNamespace → Nat) (ns : CompiledNamespace) :
    (∃ b, climb stats ns = some b) ↔
      (∃ p, CompiledNamespace.parent ns = some p ∧ stats p = 1) := by
  rw [climb_eq]
  cases hp : CompiledNamespace.parent ns with
  | none => simp
  | some p =>
    by_cases hs : stats p = 1
    · simp [hs]
    · simp [hs]

theorem mem_replacements_iff (input : Compiled) (orig r : QualifiedName) :
    (orig, r) ∈ replacements input ↔
      (orig ∈ input.simple_types.map Prod.fst ∧ r.name = orig.name ∧
        climb (type_nss (input.simple_types.map Prod.fst) orig.name) orig.«namespace» =
          some r.«namespace») := by
  unfold replacements
  rw [List.mem_filterMap]
  constructor
  · rintro ⟨k, hk, hf⟩
    cases hc : climb (type_nss (input.simple_types.map Prod.fst) k.name) k.«namespace» with
    | none =>
      rw [hc] at hf
      exact Option.noConfusion hf
    | some best =>
      rw [hc] at hf
      simp only [Option.map_some', Option.some.injEq, Prod.mk.injEq] at hf
      obtain ⟨hko, hr⟩ := hf
      subst hko
      subst hr
      exact ⟨hk, rfl, hc⟩
  · rintro ⟨hmem, hname, hclimb⟩
    refine ⟨orig, hmem, ?_⟩
    rw [hclimb]
    simp only [Option.map_some', Option.some.injEq, Prod.mk.injEq]
    refine ⟨trivial, ?_⟩
    cases r with
    | mk rns rname =>
      simp only at hname
      simp [hname]

/-- Concrete scenario: two simple types named `Count` under the disjoint
top-level ancestors `A` and `B`. -/
def cAB : Compiled :=
  { simple_types := [(⟨["A", "v1_0_0"], "Count"⟩, .typeDefinition "Edm.Int64"),
                     (⟨["B", "v1_0_0"], "Count"⟩, .typeDefinition "Edm.Int64")]
    complex_types := []
    entity_types := []
    root_singletons := [] }

/-- Concrete scenario: two simple types named `Count` under the same top-level
ancestor `A`. -/
def cAA : Compiled :=
  { simple_types := [(⟨["A", "v1_0_0"], "Count"⟩, .typeDefinition "Edm.Int64"),
                     (⟨["A", "v2_0_0"], "Count"⟩, .typeDefinition "Edm.Int64")]
    complex_types := []
    entity_types := []
    root_singletons := [] }

/-- C1: a replacement is produced for a simple-type key `orig` exactly when
its namespace has a parent whose count for `orig`'s terminal name is one, and
the replacement keeps `orig`'s name and hoists to the last ancestor reached by
climbing while the count stays exactly one, stopping at the first ancestor
whose count is not one (an unrecorded ancestor counts as zero); in particular
`A.v1_0_0::Count` and `B.v1_0_0::Count` both hoist to the single-segment
namespaces `A` and `B`, while `A.v1_0_0::Count` and `A.v2_0_0::Count` yield no
replacement. -/
theorem prune_replacement_selection :
    (∀ (input : Compiled) (orig : QualifiedName),
      orig ∈ input.simple_types.map Prod.fst →
      ((∃ r, (orig, r) ∈ replacements input) ↔
        (∃ p, CompiledNamespace.parent orig.«namespace» = some p ∧
          specCnt (input.simple_types.map Prod.fst) orig.name p = 1)) ∧
      (∀ r, (orig, r) ∈ replacements input →
        r.name = orig.name ∧
        r.«namespace» ∈ ancestors orig.«namespace» ∧
        (∀ a ∈ ancestors orig.«namespace», r.«namespace».length ≤ a.length →
          specCnt (input.simple_types.map Prod.fst) orig.name a = 1) ∧
        (∀ q, CompiledNamespace.parent r.«namespace» = some q →
          specCnt (input.simple_types.map Prod.fst) orig.name q ≠ 1))) ∧
    replacements cAB =
      [(⟨["A", "v1_0_0"], "Count"⟩, ⟨["A"], "Count"⟩),
       (⟨["B", "v1_0_0"], "Count"⟩, ⟨["B"], "Count"⟩)] ∧
    replacements cAA = [] := by
  refine ⟨?_, by decide, by decide⟩
  intro input orig hmem
  have hcnt_eq : ∀ a, type_nss (input.simple_types.map Prod.fst) orig.name a =
      specCnt (input.simple_types.map Prod.fst) orig.name a :=
    fun a => type_nss_eq_specCnt _ _ _
  constructor
  · constructor
    · rintro ⟨r, hr⟩
      obtain ⟨-, -, hclimb⟩ := (mem_replacements_iff input orig r).mp hr
      obtain ⟨p, hp, hone⟩ := (climb_some_iff _ _).mp ⟨_, hclimb⟩
      exact ⟨p, hp, by rw [← hcnt_eq]; exact hone⟩
    · rintro ⟨p, hp, hone⟩
      obtain ⟨b, hb⟩ := (climb_some_iff
          (type_nss (input.simple_types.map Prod.fst) orig.name) orig.«namespace»).mpr
        ⟨p, hp, by rw [hcnt_eq]; exact hone⟩
      exact ⟨⟨b, orig.name⟩, (mem_replacements_iff input orig ⟨b, orig.name⟩).mpr
        ⟨hmem, rfl, hb⟩⟩
  · intro r hr
    obtain ⟨-, hname, hclimb⟩ := (mem_replacements_iff input orig r).mp hr
    obtain ⟨hmem2, hbetween, hstop⟩ :=
      find_best_some (type_nss (input.simple_types.map Prod.fst) orig.name)
        orig.«namespace».length orig.«namespace» r.«namespace» (Nat.le_refl _) hclimb
    refine ⟨hname, hmem2, ?_, ?_⟩
    · intro a ha hle
      rw [← hcnt_eq]
      exact hbetween a ha hle
    · intro q hq
      rw [← hcnt_eq]
      exact hstop q hq

/-- C1 witness: the replacement description applied to the concrete scenario
`cAB` at key `A.v1_0_0::Count` and its produced replacement `A::Count`. -/
theorem prune_replacement_selection_witness :
    (⟨["A"], "Count"⟩ : QualifiedName).name =
      (⟨["A", "v1_0_0"], "Count"⟩ : QualifiedName).name ∧
    (⟨["A"], "Count"⟩ : QualifiedName).«namespace» ∈
      ancestors (⟨["A", "v1_0_0"], "Count"⟩ : QualifiedName).«namespace» := by
  have h := (prune_replacement_selection.1 cAB ⟨["A", "v1_0_0"], "Count"⟩ (by decide)).2
    ⟨["A"], "Count"⟩ (by decide)
  exact ⟨h.1, h.2.1⟩

/-- Qualified name referenced by a property type. -/
def CompiledPropertyType.ref : CompiledPropertyType → QualifiedName
  | .One v => v
  | .CollectionOf v => v

/-- Whether a property type is the `CollectionOf` variant. -/
def CompiledPropertyType.isCollection : CompiledPropertyType → Bool
  | .One _ => false
  | .CollectionOf _ => true

/-- Lookup in the replacement map, as the code's `HashMap::get`. -/
def lookupRepl (input : Compiled) (t : QualifiedName) : Option QualifiedName :=
  ((replacements input).find? (fun e => e.1 == t)).map Prod.snd

/-- One property of the output corresponds to one property of the input: same
name, same One/CollectionOf variant, and the referenced qualified name passed
through the replacement map (left untouched when absent there). -/
def rewrittenProp (input : Compiled) (p q : CompiledProperty) : Prop :=
  q.name = p.name ∧
  q.ptype.isCollection = p.ptype.isCollection ∧
  q.ptype.ref = (match lookupRepl input p.ptype.ref with
                 | some r => r
                 | none => p.ptype.ref)

/-- Navigation-property analogue of `rewrittenProp`. -/
def rewrittenNav (input : Compiled) (p q : CompiledNavProperty) : Prop :=
  q.name = p.name ∧
  q.ptype.isCollection = p.ptype.isCollection ∧
  q.ptype.ref = (match lookupRepl input p.ptype.ref with
                 | some r => r
                 | none => p.ptype.ref)

/-- One complex/entity table entry of the output corresponds to one entry of
the input: same key, properties and navigation properties rewritten
point-wise. -/
def rewrittenEntry (input : Compiled) (a b : QualifiedName × CompiledProperties) : Prop :=
  b.1 = a.1 ∧
  List.Forall₂ (rewrittenProp input) a.2.properties b.2.properties ∧
  List.Forall₂ (rewrittenNav input) a.2.nav_properties b.2.nav_properties

theorem forall₂_map_self {α β : Type _} (R : α → β → Prop) (f : α → β) :
    ∀ (l : List α), (∀ a ∈ l, R a (f a)) → List.Forall₂ R l (l.map f) := by
  intro l h
  induction l with
  | nil => exact List.Forall₂.nil
  | cons a t ih =>
    exact List.Forall₂.cons (h a (List.mem_cons_self a t))
      (ih (fun x hx => h x (List.mem_cons_of_mem a hx)))

theorem replace_eq_lookup (input : Compiled) (t : QualifiedName) :
    replace t (replacements input) =
      match lookupRepl input t with
      | some r => r
      | none => t := by
  unfold replace lookupRepl
  cases h : (replacements input).find? (fun e => e.1 == t) with
  | none => rfl
  | some e => rfl

theorem rewrittenProp_map (input : Compiled) (p : CompiledProperty) :
    rewrittenProp input p (p.map_type (fun t => replace t (replacements input))) := by
  obtain ⟨nm, pt⟩ := p
  refine ⟨rfl, ?_, ?_⟩
  · cases pt <;> rfl
  · cases pt with
    | One v => exact replace_eq_lookup input v
    | CollectionOf v => exact replace_eq_lookup input v

theorem rewrittenNav_map (input : Compiled) (p : CompiledNavProperty) :
    rewrittenNav input p (p.map_type (fun t => replace t (replacements input))) := by
  obtain ⟨nm, pt⟩ := p
  refine ⟨rfl, ?_, ?_⟩
  · cases pt <;> rfl
  · cases pt with
    | One v => exact replace_eq_lookup input v
    | CollectionOf v => exact replace_eq_lookup input v

theorem rewrittenEntry_map (input : Compiled) (e : QualifiedName × CompiledProperties) :
    rewrittenEntry input e
      (e.1, e.2.map_properties (fun t => replace t (replacements input))) := by
  refine ⟨rfl, ?_, ?_⟩
  · exact forall₂_map_self _ _ _ (fun p _ => rewrittenProp_map input p)
  · exact forall₂_map_self _ _ _ (fun p _ => rewrittenNav_map input p)

/-- C8: the frame of `prune_simple_types_namespaces` — replaced simple-type
entries are removed and nothing else in that table changes (the output table
is a sublist of the input, holding exactly the entries without a
replacement); the complex/entity key sets are unchanged while every property
reference is substituted through the replacement map (variant preserved,
untouched when absent); and root singletons pass through unchanged. -/
theorem prune_frame (input : Compiled) :
    ((prune_simple_types_namespaces input).simple_types.Sublist input.simple_types) ∧
    (∀ (k : QualifiedName) (v : SimpleTypeAttrs),
      (k, v) ∈ (prune_simple_types_namespaces input).simple_types ↔
        ((k, v) ∈ input.simple_types ∧ ∀ r, (k, r) ∉ replacements input)) ∧
    ((prune_simple_types_namespaces input).complex_types.map Prod.fst =
      input.complex_types.map Prod.fst) ∧
    ((prune_simple_types_namespaces input).entity_types.map Prod.fst =
      input.entity_types.map Prod.fst) ∧
    List.Forall₂ (rewrittenEntry input) input.complex_types
      (prune_simple_types_namespaces input).complex_types ∧
    List.Forall₂ (rewrittenEntry input) input.entity_types
      (prune_simple_types_namespaces input).entity_types ∧
    (prune_simple_types_namespaces input).root_singletons = input.root_singletons := by
  refine ⟨?_, ?_, ?_, ?_, ?_, ?_, rfl⟩
  · exact List.filter_sublist _
  · intro k v
    show (k, v) ∈ input.simple_types.filter
        (fun e => !((replacements input).any (fun r => r.1 == e.1))) ↔ _
    rw [List.mem_filter]
    refine and_congr Iff.rfl ?_
    show (!((replacements input).any (fun r => r.1 == (k, v).1))) = true ↔
      ∀ r, (k, r) ∉ replacements input
    rw [Bool.not_eq_true', List.any_eq_false]
    constructor
    · intro h r hr
      have := h (k, r) hr
      simp at this
    · intro h x hx hbeq
      have hx1 : x.1 = k := by simpa using hbeq
      exact h x.2 (by rw [← hx1]; exact hx)
  · show (input.complex_types.map _).map Prod.fst = input.complex_types.map Prod.fst
    rw [List.map_map]
    rfl
  · show (input.entity_types.map _).map Prod.fst = input.entity_types.map Prod.fst
    rw [List.map_map]
    rfl
  · exact forall₂_map_self _ _ _ (fun e _ => rewrittenEntry_map input e)
  · exact forall₂_map_self _ _ _ (fun e _ => rewrittenEntry_map input e)

/-- All qualified names referenced by the properties and navigation
properties of a compiled type. -/
def typeRefs (v : CompiledProperties) : List QualifiedName :=
  v.properties.map (fun p => p.ptype.ref) ++ v.nav_properties.map (fun p => p.ptype.ref)

/-- Whether a qualified name is a key of one of the `Compiled` tables. -/
def isKeyOf (c : Compiled) (q : QualifiedName) : Bool :=
  c.simple_types.any (fun e => e.1 == q) ||
  c.complex_types.any (fun e => e.1 == q) ||
  c.entity_types.any (fun e => e.1 == q)

/-- The spec's no-dangling-references invariant: every qualified name
referenced by a property or navigation property of a complex or entity type
is a key of one of the tables. -/
def danglingFree (c : Compiled) : Bool :=
  (c.complex_types ++ c.entity_types).all (fun e => (typeRefs e.2).all (fun t => isKeyOf c t))

/-- Concrete input for the dangling-reference counterexample: one simple type
`A.v1_0_0::Count` and one entity type with a property referencing it; the
input has no dangling references. -/
def danglingInput : Compiled :=
  { simple_types := [(⟨["A", "v1_0_0"], "Count"⟩, .typeDefinition "Edm.Int64")]
    complex_types := []
    entity_types := [(⟨["A", "v1_0_0"], "E"⟩,
      ⟨[⟨"Cnt", .One ⟨["A", "v1_0_0"], "Count"⟩⟩], []⟩)]
    root_singletons := [] }

/-- C2: evaluation of the code at the failing input — the input satisfies the
no-dangling-references invariant, but the optimizer's output does not: the
pruned simple type `A.v1_0_0::Count` is deleted and never reinserted under its
new name `A::Count`, while the entity property's reference is rewritten to
`A::Count`, which is a key of no output table. -/
theorem prune_dangling_reference_bug :
    danglingFree danglingInput = true ∧
    danglingFree (prune_simple_types_namespaces danglingInput) = false ∧
    (prune_simple_types_namespaces danglingInput).simple_types = [] ∧
    (prune_simple_types_namespaces danglingInput).entity_types =
      [(⟨["A", "v1_0_0"], "E"⟩, ⟨[⟨"Cnt", .One ⟨["A"], "Count"⟩⟩], []⟩)] := by
  refine ⟨?_, ?_, ?_, ?_⟩ <;> decide

theorem lowerPairs_snd_not_upper : ∀ p ∈ lowerPairs, rustIsUpper p.2 = false := by decide

theorem lowerPairs_snd_ne_underscore : ∀ p ∈ lowerPairs, p.2 ≠ '_' := by decide

theorem extraUpper_not_ascii : ∀ d ∈ extraUpperChars, 128 ≤ d.toNat := by decide

theorem find?_none_of_rustIsUpper_eq_false {c : Char} (h : rustIsUpper c = false) :
    lowerPairs.find? (fun p => p.1 == c) = none := by
  unfold rustIsUpper at h
  have h1 : lowerPairs.any (fun p => p.1 == c) = false := by
    cases hb : lowerPairs.any (fun p => p.1 == c)
    · rfl
    · rw [hb] at h
      simp at h
  rw [List.find?_eq_none]
  exact List.any_eq_false.mp h1

theorem ascii_not_extraUpper {c : Char} (h : c.toNat < 128) :
    extraUpperChars.contains c = false := by
  cases hb : extraUpperChars.contains c
  · rfl
  · have hmem : c ∈ extraUpperChars := List.elem_iff.mp hb
    have := extraUpper_not_ascii c hmem
    omega

theorem rustIsUpper_rustToLower_ascii {c : Char} (h : c.toNat < 128) :
    rustIsUpper (rustToLower c) = false := by
  unfold rustToLower
  cases hf : lowerPairs.find? (fun p => p.1 == c) with
  | none =>
    unfold rustIsUpper
    rw [List.find?_eq_none] at hf
    rw [List.any_eq_false.mpr hf, ascii_not_extraUpper h]
    rfl
  | some p => exact lowerPairs_snd_not_upper p (List.mem_of_find?_eq_some hf)

theorem rustToLower_idem (c : Char) : rustToLower (rustToLower c) = rustToLower c := by
  unfold rustToLower
  cases h : lowerPairs.find? (fun p => p.1 == c) with
  | none => rw [h]
  | some p =>
    have hup := lowerPairs_snd_not_upper p (List.mem_of_find?_eq_some h)
    rw [find?_none_of_rustIsUpper_eq_false hup]

theorem rustToLower_ne_underscore {c : Char} (h : c ≠ '_') : rustToLower c ≠ '_' := by
  unfold rustToLower
  cases hf : lowerPairs.find? (fun p => p.1 == c) with
  | none => exact h
  | some p => exact lowerPairs_snd_ne_underscore p (List.mem_of_find?_eq_some hf)

/-- Underscore-only splitting: the behaviour of `tokenize_to_words` on
character streams with no upper-case character. -/
def simpleGo : List Char → List Char → List (List Char)
  | cur, [] => [cur]
  | cur, c :: rest =>
    if c == '_' then cur :: simpleGo [] rest else simpleGo (cur ++ [c]) rest

theorem isWordBoundary_of_not_upper (prev : Option Char) (c : Char) (rest : List Char)
    (h : rustIsUpper c = false) : isWordBoundary prev c rest = (c == '_') := by
  unfold isWordBoundary
  cases prev with
  | none => simp
  | some p => simp [h]

theorem tokenizeGo_eq_simpleGo :
    ∀ (cs : List Char) (prev : Option Char) (cur : List Char),
      (∀ c ∈ cs, rustIsUpper c = false) → tokenizeGo prev cur cs = simpleGo cur cs := by
  intro cs
  induction cs with
  | nil => intro prev cur _; rfl
  | cons c rest ih =>
    intro prev cur h
    have hc := h c (List.mem_cons_self c rest)
    have hrest : ∀ d ∈ rest, rustIsUpper d = false :=
      fun d hd => h d (List.mem_cons_of_mem c hd)
    unfold tokenizeGo simpleGo
    rw [isWordBoundary_of_not_upper prev c rest hc]
    by_cases hund : (c == '_') = true
    · rw [if_pos hund, if_pos hund, ih (some c) [] hrest]
      have : c = '_' := by simpa using hund
      subst this
      rfl
    · rw [if_neg hund, if_neg hund, ih (some c) _ hrest]
      have hcne : (c == '_') = false := by simpa using hund
      rw [hcne]
      rfl

theorem simpleGo_append (w : List Char) :
    ∀ (cur rest : List Char), '_' ∉ w → simpleGo cur (w ++ rest) = simpleGo (cur ++ w) rest := by
  induction w with
  | nil => intro cur rest _; simp
  | cons c cw ih =>
    intro cur rest h
    simp only [List.mem_cons, not_or] at h
    have hcne : (c == '_') = false := by
      simp only [beq_eq_false_iff_ne, ne_eq]
      exact fun hcc => h.1 hcc.symm
    simp only [List.cons_append, simpleGo, hcne, Bool.false_eq_true, if_false, List.append_eq]
    rw [ih (cur ++ [c]) rest h.2]
    simp

theorem simpleGo_joinUnderscore :
    ∀ (ws : List (List Char)) (w cur : List Char),
      (∀ x ∈ w :: ws, '_' ∉ x) →
      simpleGo cur (joinUnderscore (w :: ws)) = (cur ++ w) :: ws := by
  intro ws
  induction ws with
  | nil =>
    intro w cur h
    show simpleGo cur w = [cur ++ w]
    rw [show w = w ++ [] by simp, simpleGo_append w cur [] (h w (List.mem_cons_self _ _))]
    simp [simpleGo]
  | cons w2 ws ih =>
    intro w cur h
    show simpleGo cur (w ++ '_' :: joinUnderscore (w2 :: ws)) = _
    rw [simpleGo_append w cur _ (h w (List.mem_cons_self _ _))]
    show (if ('_' == '_') = true then (cur ++ w) :: simpleGo [] (joinUnderscore (w2 :: ws))
         else _) = _
    rw [if_pos (by decide)]
    rw [ih w2 [] (fun x hx => h x (List.mem_cons_of_mem w hx))]
    simp

theorem tokenizeGo_no_underscore :
    ∀ (cs : List Char) (prev : Option Char) (cur : List Char), '_' ∉ cur →
      ∀ w ∈ tokenizeGo prev cur cs, '_' ∉ w := by
  intro cs
  induction cs with
  | nil =>
    intro prev cur h w hw
    simp only [tokenizeGo, List.mem_singleton] at hw
    subst hw
    exact h
  | cons c rest ih =>
    intro prev cur h w hw
    unfold tokenizeGo at hw
    by_cases hb : isWordBoundary prev c rest = true
    · rw [if_pos hb] at hw
      rcases List.mem_cons.mp hw with rfl | hmem
      · exact h
      · refine ih (some c) _ ?_ w hmem
        by_cases hc : (c == '_') = true
        · rw [if_pos hc]
          simp
        · rw [if_neg hc]
          simp only [Bool.not_eq_true] at hc
          simp only [List.mem_singleton]
          intro hcontra
          rw [hcontra] at hc
          simp at hc
    · rw [if_neg hb] at hw
      refine ih (some c) _ ?_ w hw
      intro hmem
      rcases List.mem_append.mp hmem with hmem1 | hmem2
      · exact h hmem1
      · by_cases hc : (c == '_') = true
        · rw [if_pos hc] at hmem2
          simp at hmem2
        · rw [if_neg hc] at hmem2
          simp only [Bool.not_eq_true] at hc
          simp only [List.mem_singleton] at hmem2
          rw [hmem2] at hc
          simp at hc

theorem tokenizeGo_ne_nil (cs : List Char) :
    ∀ (prev : Option Char) (cur : List Char), tokenizeGo prev cur cs ≠ [] := by
  induction cs with
  | nil => intro prev cur; simp [tokenizeGo]
  | cons c rest ih =>
    intro prev cur
    unfold tokenizeGo
    by_cases hb : isWordBoundary prev c rest = true
    · rw [if_pos hb]
      simp
    · rw [if_neg hb]
      exact ih (some c) _

theorem map_rustToLower_joinUnderscore :
    ∀ (ws : List (List Char)),
      (joinUnderscore ws).map rustToLower =
        joinUnderscore (ws.map (List.map rustToLower)) := by
  intro ws
  induction ws with
  | nil => rfl
  | cons w ws ih =>
    cases ws with
    | nil => rfl
    | cons w2 ws2 =>
      show (w ++ '_' :: joinUnderscore (w2 :: ws2)).map rustToLower = _
      rw [List.map_append, List.map_cons, ih]
      rfl

theorem tokenizeGo_chars (P : Char → Prop) :
    ∀ (cs : List Char) (prev : Option Char) (cur : List Char),
      (∀ c ∈ cur, P c) → (∀ c ∈ cs, P c) →
      ∀ w ∈ tokenizeGo prev cur cs, ∀ c ∈ w, P c := by
  intro cs
  induction cs with
  | nil =>
    intro prev cur hcur _ w hw
    simp only [tokenizeGo, List.mem_singleton] at hw
    subst hw
    exact hcur
  | cons c rest ih =>
    intro prev cur hcur hcs w hw
    have hc : P c := hcs c (List.mem_cons_self c rest)
    have hrest : ∀ d ∈ rest, P d := fun d hd => hcs d (List.mem_cons_of_mem c hd)
    unfold tokenizeGo at hw
    by_cases hb : isWordBoundary prev c rest = true
    · rw [if_pos hb] at hw
      rcases List.mem_cons.mp hw with rfl | hmem
      · exact hcur
      · refine ih (some c) _ ?_ hrest w hmem
        by_cases hcu : (c == '_') = true
        · rw [if_pos hcu]
          simp
        · rw [if_neg hcu]
          intro d hd
          simp only [List.mem_singleton] at hd
          subst hd
          exact hc
    · rw [if_neg hb] at hw
      refine ih (some c) _ ?_ hrest w hw
      intro d hd
      rcases List.mem_append.mp hd with h1 | h2
      · exact hcur d h1
      · by_cases hcu : (c == '_') = true
        · rw [if_pos hcu] at h2
          simp at h2
        · rw [if_neg hcu] at h2
          simp only [List.mem_singleton] at h2
          subst h2
          exact hc

theorem mem_joinUnderscore :
    ∀ (ws : List (List Char)) (c : Char), c ∈ joinUnderscore ws →
      c = '_' ∨ ∃ w ∈ ws, c ∈ w := by
  intro ws
  induction ws with
  | nil =>
    intro c hc
    simp [joinUnderscore] at hc
  | cons w ws ih =>
    intro c hc
    cases ws with
    | nil =>
      right
      exact ⟨w, List.mem_cons_self _ _, hc⟩
    | cons w2 ws2 =>
      rw [show joinUnderscore (w :: w2 :: ws2) =
          w ++ '_' :: joinUnderscore (w2 :: ws2) from rfl] at hc
      rcases List.mem_append.mp hc with h1 | h2
      · right
        exact ⟨w, List.mem_cons_self _ _, h1⟩
      · rcases List.mem_cons.mp h2 with rfl | h3
        · exact Or.inl rfl
        · rcases ih c h3 with h4 | ⟨w3, hw3, hcw3⟩
          · exact Or.inl h4
          · right
            exact ⟨w3, List.mem_cons_of_mem _ hw3, hcw3⟩

/-- C10 counterexample: `to_snake` is not idempotent on all strings.  On
`"A𝐀"` (U+1D400 is upper case in Rust with no lower-case mapping) the first
pass yields `"a𝐀"`; on the second pass the lower-case `a` before the
surviving upper-case `𝐀` forces a new word boundary, yielding `"a_𝐀"`. -/
theorem to_snake_not_idempotent :
    to_snake "A𝐀" = "a𝐀" ∧
    to_snake (to_snake "A𝐀") = "a_𝐀" ∧
    ¬ (∀ s : String, to_snake (to_snake s) = to_snake s) := by
  refine ⟨rfl, rfl, fun hall => ?_⟩
  have h := hall "A𝐀"
  rw [show to_snake (to_snake "A𝐀") = "a_𝐀" from rfl,
    show to_snake "A𝐀" = "a𝐀" from rfl] at h
  exact absurd h (by decide)

/-- C10 (amended): `to_snake` is idempotent on every ASCII string — then its
output has no upper-case character, so re-tokenising it splits only at the
underscores already present, and lower-casing leaves it unchanged.  (On full
Unicode the claim fails: an upper-case character with no lower-case mapping
survives the first pass and forces a new boundary on the second.) -/
theorem to_snake_idempotent_ascii (s : String) (hascii : ∀ c ∈ s.toList, c.toNat < 128) :
    to_snake (to_snake s) = to_snake s := by
  obtain ⟨w, ws, hws⟩ : ∃ w ws, tokenize_to_words s = w :: ws := by
    rcases h : tokenize_to_words s with _ | ⟨w, ws⟩
    · exact absurd h (tokenizeGo_ne_nil s.toList none [])
    · exact ⟨w, ws, rfl⟩
  have hnound : ∀ x ∈ w :: ws, '_' ∉ x := by
    rw [← hws]
    exact tokenizeGo_no_underscore s.toList none [] (by simp)
  have hnound2 : ∀ x ∈ (w :: ws).map (List.map rustToLower), '_' ∉ x := by
    intro x hx
    obtain ⟨y, hy, rfl⟩ := List.mem_map.mp hx
    intro hmem
    obtain ⟨c, hc, hceq⟩ := List.mem_map.mp hmem
    have : c ≠ '_' := fun hceq2 => by
      subst hceq2
      exact hnound y hy hc
    exact rustToLower_ne_underscore this hceq
  have hjascii : ∀ d ∈ joinUnderscore (w :: ws), d.toNat < 128 := by
    intro d hd
    rcases mem_joinUnderscore (w :: ws) d hd with rfl | ⟨w3, hw3, hdw3⟩
    · decide
    · refine tokenizeGo_chars (fun c => c.toNat < 128) s.toList none []
        (by simp) hascii w3 ?_ d hdw3
      rw [← hws] at hw3
      exact hw3
  have hstep : tokenize_to_words (to_snake s) = (w :: ws).map (List.map rustToLower) := by
    have h1 : (to_snake s).toList = (joinUnderscore (w :: ws)).map rustToLower := by
      unfold to_snake
      rw [hws]
      rfl
    unfold tokenize_to_words
    rw [h1]
    rw [tokenizeGo_eq_simpleGo _ none [] (by
      intro c hc
      obtain ⟨d, hd, rfl⟩ := List.mem_map.mp hc
      exact rustIsUpper_rustToLower_ascii (hjascii d hd))]
    rw [map_rustToLower_joinUnderscore]
    rw [show ((w :: ws).map (List.map rustToLower)) =
        (w.map rustToLower) :: (ws.map (List.map rustToLower)) from rfl]
    rw [simpleGo_joinUnderscore (ws.map (List.map rustToLower)) (w.map rustToLower) []
      (fun x hx => hnound2 x (by simpa using hx))]
    simp
  have hmaps : (w :: ws).map (List.map rustToLower ∘ List.map rustToLower) =
      (w :: ws).map (List.map rustToLower) := by
    apply List.map_congr_left
    intro x _
    simp only [Function.comp]
    rw [List.map_map]
    apply List.map_congr_left
    intro c _
    simp only [Function.comp]
    exact rustToLower_idem c
  have houter : to_snake (to_snake s) =
      ⟨(joinUnderscore (tokenize_to_words (to_snake s))).map rustToLower⟩ := rfl
  rw [houter, hstep, map_rustToLower_joinUnderscore, List.map_map, hmaps,
    ← map_rustToLower_joinUnderscore, ← hws]
  rfl

/-- C10 witness: idempotence applied at the concrete ASCII string
`"PCIeFunctions"`, discharging the ASCII hypothesis. -/
theorem to_snake_idempotent_ascii_witness :
    to_snake (to_snake "PCIeFunctions") = to_snake "PCIeFunctions" :=
  to_snake_idempotent_ascii "PCIeFunctions" (by decide)

end NvRedfish
